import Mathlib

/-!
Verification of the assertion-evaluation core of `backend/server.py`.

The Python code is shallowly embedded: Python values occurring in traces,
assertion arguments and JSON documents are modelled by the inductive type
`JVal` (numbers are modelled as rationals: the int/float distinction only
influences message formatting, which no property here depends on); Python
strings are modelled as `List Char`; functions that can raise are modelled
in the `Except` monad, where `Except.error` is a raised exception.
-/

/-- Python strings are modelled as lists of characters. -/
abbrev PStr := List Char

/-- A Python/JSON value: `None`, booleans, numbers (ints and floats modelled
as rationals), strings, lists and string-keyed dicts (JSON objects, as
produced by `resp.json()` and the literal trace dicts in the source). -/
inductive JVal where
  | null : JVal
  | boolV (b : Bool) : JVal
  | num (q : Rat) : JVal
  | str (s : PStr) : JVal
  | arr (xs : List JVal) : JVal
  | obj (kvs : List (PStr × JVal)) : JVal
deriving Inhabited

/-- First-match lookup in an assoc list, modelling Python dict access
(Python dicts have unique keys, so first match is the match). -/
def lookupStr (k : PStr) : List (PStr × JVal) → Option JVal
  | [] => none
  | (k2, v) :: rest => if k2 = k then some v else lookupStr k rest

theorem lookupStr_sizeOf (k : PStr) :
    ∀ (l : List (PStr × JVal)) (v : JVal), lookupStr k l = some v → sizeOf v < sizeOf l := by
  intro l
  induction l with
  | nil => intro v h; simp [lookupStr] at h
  | cons kv rest ih =>
    intro v h
    simp only [lookupStr] at h
    by_cases hk : kv.1 = k
    · rw [if_pos hk] at h
      cases h
      cases kv with
      | mk a b => simp; omega
    · rw [if_neg hk] at h
      have := ih v h
      cases kv with
      | mk a b => simp; omega

/-- Numeric view used by Python `==`: `bool` compares equal to numbers
(`True == 1`), numbers compare by value. -/
def asNum : JVal → Option Rat
  | .boolV b => some (if b then 1 else 0)
  | .num q => some q
  | _ => none

mutual
/-- Python `==` on modelled values: numeric cross-type equality
(bool/int/float), structural equality on strings and lists, and
order-insensitive equality on dicts (same size, every key of the left dict
present in the right with an equal value). -/
def pyEq : JVal → JVal → Bool
  | .null, .null => true
  | .str a, .str b => a = b
  | .arr a, .arr b => pyEqList a b
  | .obj a, .obj b => a.length = b.length && pyEqObjAll a b
  | a, b =>
    match asNum a, asNum b with
    | some x, some y => x = y
    | _, _ => false
termination_by a b => sizeOf a + sizeOf b

def pyEqList : List JVal → List JVal → Bool
  | [], [] => true
  | a :: as1, b :: bs => pyEq a b && pyEqList as1 bs
  | _, _ => false
termination_by a b => sizeOf a + sizeOf b
decreasing_by
  all_goals simp_wf
  all_goals omega

def pyEqObjAll : List (PStr × JVal) → List (PStr × JVal) → Bool
  | [], _ => true
  | (k, v) :: rest, b =>
    (match h : lookupStr k b with
     | some w => pyEq v w
     | none => false) && pyEqObjAll rest b
termination_by a b => sizeOf a + sizeOf b
decreasing_by
  all_goals simp_wf
  all_goals first
    | omega
    | (have hlk := lookupStr_sizeOf k b w h
       omega)
end

/-- Python truthiness: `None`, `False`, `0`, empty string/list/dict are falsy. -/
def pyTruthy : JVal → Bool
  | .null => false
  | .boolV b => b
  | .num q => q ≠ 0
  | .str s => !s.isEmpty
  | .arr xs => !xs.isEmpty
  | .obj kvs => !kvs.isEmpty

/-- `x or default` for Python values: `x` when truthy, else the default. -/
def pyOr (x dflt : JVal) : JVal := if pyTruthy x then x else dflt

/-- Is this value Python `None`? (`x is None`). -/
def isNull : JVal → Bool
  | .null => true
  | _ => false

/-- Fuel-indexed decimal rendering (structural on the fuel so that closed
instances compute; the fuel supplied by `natDigits` is never exhausted). -/
def natDigitsF : Nat → Nat → PStr
  | 0, _ => []
  | fuel + 1, n =>
    if n < 10 then [Char.ofNat (48 + n)]
    else natDigitsF fuel (n / 10) ++ [Char.ofNat (48 + n % 10)]

/-- Decimal digits of a natural number, most significant first
(model of Python integer formatting). -/
def natDigits (n : Nat) : PStr := natDigitsF (n + 1) n

/-- Decimal rendering of an integer. -/
def intRepr (i : Int) : PStr :=
  if i < 0 then '-' :: natDigits i.natAbs else natDigits i.natAbs

/-- Rendering of a modelled number. Integral values print as Python ints;
non-integral values (Python floats) are printed as `num/den`, an
approximation of Python float formatting (no property proved here depends
on the text of a non-integral number). -/
def numRepr (q : Rat) : PStr :=
  if q.den = 1 then intRepr q.num
  else intRepr q.num ++ '/' :: natDigits q.den

/-- Rendering of a Python float (`str(float)`): integral floats print with
a trailing `.0`, as Python does. -/
def floatRepr (q : Rat) : PStr :=
  if q.den = 1 then intRepr q.num ++ '.' :: ['0']
  else numRepr q

/-- A single-quote character (used by Python repr of strings). -/
def sqc : Char := Char.ofNat 39

/-- Left and right curly-brace characters (Python dict formatting). -/
def lcb : Char := Char.ofNat 123

def rcb : Char := Char.ofNat 125

mutual
/-- Python `repr` on modelled values (strings are quoted; containers render
their elements with `repr`, as Python does). Escaping inside strings is not
modelled; no property here depends on it. -/
def pyRepr : JVal → PStr
  | .null => "None".data
  | .boolV true => "True".data
  | .boolV false => "False".data
  | .num q => numRepr q
  | .str s => sqc :: s ++ [sqc]
  | .arr xs => '[' :: pyReprList xs ++ [']']
  | .obj kvs => lcb :: pyReprObj kvs ++ [rcb]
termination_by v => sizeOf v
decreasing_by
  all_goals simp_wf

def pyReprList : List JVal → PStr
  | [] => []
  | [x] => pyRepr x
  | x :: y :: rest => pyRepr x ++ ',' :: ' ' :: pyReprList (y :: rest)
termination_by xs => sizeOf xs
decreasing_by
  all_goals simp_wf
  all_goals omega

def pyReprObj : List (PStr × JVal) → PStr
  | [] => []
  | [(k, v)] => (sqc :: k ++ [sqc]) ++ ':' :: ' ' :: pyRepr v
  | (k, v) :: kv2 :: rest =>
      ((sqc :: k ++ [sqc]) ++ ':' :: ' ' :: pyRepr v) ++ ',' :: ' ' :: pyReprObj (kv2 :: rest)
termination_by kvs => sizeOf kvs
decreasing_by
  all_goals simp_wf
  all_goals omega
end

/-- Python `str` on modelled values: identity on strings, `repr` otherwise
(which matches Python for `None`, booleans, numbers, lists and dicts). -/
def pyStr : JVal → PStr
  | .str s => s
  | v => pyRepr v

/-- Python `str.split(c)`: split on every occurrence of `c`, keeping empty
pieces (so the result is always nonempty). -/
def splitOnChar (c : Char) : PStr → List PStr
  | [] => [[]]
  | b :: r =>
    if b = c then [] :: splitOnChar c r
    else
      match splitOnChar c r with
      | [] => [[b]]
      | p :: ps => (b :: p) :: ps

/-- Index of the first occurrence of `c` (length of the list if absent),
modelling `str.index` under a guard that guarantees presence. -/
def charIdx (c : Char) : PStr → Nat
  | [] => 0
  | b :: r => if b = c then 0 else charIdx c r + 1

/-- Is `needle` a leading run of `hay`? -/
def listIsPre : PStr → PStr → Bool
  | [], _ => true
  | _ :: _, [] => false
  | a :: as1, b :: bs => a = b && listIsPre as1 bs

/-- Python `needle in hay` for strings: contiguous substring test
(the empty needle is contained in everything). -/
def containsSub : PStr → PStr → Bool
  | [], needle => needle.isEmpty
  | h :: t, needle => listIsPre needle (h :: t) || containsSub t needle

/-- ASCII whitespace recognised by Python `str.strip` and regex
whitespace (exotic unicode spaces are not modelled). -/
def isPySpace (c : Char) : Bool :=
  c = ' ' || c = '\t' || c = '\n' || c = '\r' || c = Char.ofNat 11 || c = Char.ofNat 12

/-- Strip leading and trailing whitespace. -/
def trimSpaces (s : PStr) : PStr :=
  ((s.dropWhile isPySpace).reverse.dropWhile isPySpace).reverse

def digitVal (c : Char) : Option Nat :=
  if 48 ≤ c.toNat ∧ c.toNat ≤ 57 then some (c.toNat - 48) else none

def digitsToNatAux : Nat → PStr → Option Nat
  | acc, [] => some acc
  | acc, c :: r =>
    match digitVal c with
    | some d => digitsToNatAux (10 * acc + d) r
    | none => none

/-- Parse a nonempty run of decimal digits. -/
def digitsToNat : PStr → Option Nat
  | [] => none
  | s => digitsToNatAux 0 s

/-- Python `int(str)`: optional surrounding whitespace, optional sign,
decimal digits (digit-group underscores are not modelled). `none` models a
raised ValueError. -/
def pyIntStr (s : PStr) : Option Int :=
  match trimSpaces s with
  | '+' :: r => (digitsToNat r).map Int.ofNat
  | '-' :: r => (digitsToNat r).map (fun n => -(Int.ofNat n))
  | r => (digitsToNat r).map Int.ofNat

def expChar (c : Char) : Bool := c = 'e' || c = 'E'

def splitAtExpChar : PStr → PStr × Option PStr
  | [] => ([], none)
  | c :: r =>
    if expChar c then ([], some r)
    else
      let p := splitAtExpChar r
      (c :: p.1, p.2)

def parseExp (s : PStr) : Option Int :=
  match s with
  | '+' :: r => (digitsToNat r).map Int.ofNat
  | '-' :: r => (digitsToNat r).map (fun n => -(Int.ofNat n))
  | r => (digitsToNat r).map Int.ofNat

/-- Mantissa of a Python float literal: `digits`, `digits.`, `.digits` or
`digits.digits`. -/
def parseMantissa (s : PStr) : Option Rat :=
  match splitOnChar '.' s with
  | [a] => (digitsToNat a).map (fun n => (n : Rat))
  | [a, b] =>
    if a.isEmpty && b.isEmpty then none
    else
      match (if a.isEmpty then some 0 else digitsToNat a),
            (if b.isEmpty then some 0 else digitsToNat b) with
      | some i, some f => some ((i : Rat) + (f : Rat) / ((10 : Rat) ^ b.length))
      | _, _ => none
  | _ => none

/-- Python `float(str)`: optional whitespace, sign, mantissa, optional
exponent (`inf`/`nan` and digit-group underscores are not modelled; float
values are exact rationals). `none` models a raised ValueError. -/
def pyFloatStr (s : PStr) : Option Rat :=
  let t := trimSpaces s
  let su :=
    match t with
    | '+' :: r => ((1 : Rat), r)
    | '-' :: r => ((-1 : Rat), r)
    | r => ((1 : Rat), r)
  let me := splitAtExpChar su.2
  match parseMantissa me.1, me.2 with
  | some q, none => some (su.1 * q)
  | some q, some es => (parseExp es).map (fun k => su.1 * q * (10 : Rat) ^ k)
  | _, _ => none

/-- Python `float(x)` on a value: numbers and booleans coerce, strings are
parsed, everything else (None, lists, dicts) raises — modelled as `none`,
matching the `try/except` around the conversion in `eval_assertion`. -/
def pyFloat : JVal → Option Rat
  | .boolV b => some (if b then 1 else 0)
  | .num q => some q
  | .str s => pyFloatStr s
  | _ => none

/-- Python sequence subscription `cur[i]` with an integer index (negative
indices count from the end) for lists and strings; anything else — including
the string-keyed dicts of this model — fails, modelling the exception that
`jsonpath_get` converts to `None`. -/
def pySubscript (cur : JVal) (i : Int) : Option JVal :=
  match cur with
  | .arr xs =>
    let n : Int := xs.length
    if 0 ≤ i ∧ i < n then xs.get? i.toNat
    else if -n ≤ i ∧ i < 0 then xs.get? (i + n).toNat
    else none
  | .str s =>
    let n : Int := s.length
    if 0 ≤ i ∧ i < n then (s.get? i.toNat).map (fun c => .str [c])
    else if -n ≤ i ∧ i < 0 then (s.get? (i + n).toNat).map (fun c => .str [c])
    else none
  | _ => none

/-- The per-segment walk of `jsonpath_get` (server.py lines 121-160).
`Except.error` models the uncaught ValueError raised by the tuple unpacking
`name, idx = part.split("[")` when a list-context segment contains more than
one opening bracket; every other failure returns Python `None` (`.null`). -/
def jwalk : JVal → List PStr → Except PStr JVal
  | cur, [] => .ok cur
  | cur, part :: rest =>
    match cur with
    | .arr xs =>
      if part.getLast? = some ']' && part.contains '[' then
        match splitOnChar '[' part with
        | [name, idxp] =>
          let idx := idxp.filter (fun c => !(c = ']'))
          match
            (if name.isEmpty then some (JVal.arr xs)
             else
               match pyIntStr name with
               | some i => pySubscript (JVal.arr xs) i
               | none => none) with
          | none => .ok .null
          | some cur1 =>
            match pyIntStr idx with
            | none => .ok .null
            | some j =>
              match pySubscript cur1 j with
              | none => .ok .null
              | some cur2 => jwalk cur2 rest
        | _ => .error "ValueError".data
      else
        match pyIntStr part with
        | none => .ok .null
        | some i =>
          match pySubscript (JVal.arr xs) i with
          | none => .ok .null
          | some cur2 => jwalk cur2 rest
    | .obj kvs =>
      if part.getLast? = some ']' && part.contains '[' then
        let key := part.take (charIdx '[' part)
        let inner := (part.take (part.length - 1)).drop (charIdx '[' part + 1)
        match pyIntStr inner with
        | none => .ok .null
        | some i =>
          match lookupStr key kvs with
          | none => .ok .null
          | some v =>
            match pySubscript v i with
            | none => .ok .null
            | some cur2 => jwalk cur2 rest
      else
        match lookupStr part kvs with
        | none => .ok .null
        | some v => jwalk v rest
    | _ => .ok .null

/-- `jsonpath_get` (server.py lines 117-160): falsy or `$`-less paths yield
`None`; otherwise the dotted path is split, empty segments are dropped, and
the walk starts after the first segment. A truthy non-string path raises
(`path.startswith` on a non-string), modelled as `Except.error`. -/
def jsonpath_get (data : JVal) (path : JVal) : Except PStr JVal :=
  if !pyTruthy path then .ok .null
  else
    match path with
    | .str s =>
      match s with
      | '$' :: _ =>
        jwalk data ((((splitOnChar '.' s).filter (fun p => !p.isEmpty))).drop 1)
      | _ => .ok .null
    | _ => .error "AttributeError".data

/-- Python `d.get(k, dflt)`: raises AttributeError on a non-dict receiver
(modelled as `Except.error`), otherwise the value or the default. -/
def pyGetD (d : JVal) (k : PStr) (dflt : JVal) : Except PStr JVal :=
  match d with
  | .obj kvs => .ok ((lookupStr k kvs).getD dflt)
  | _ => .error "AttributeError".data

/-- Python iteration `for x in v`: lists yield elements, strings yield
one-character strings, dicts yield their keys; anything else raises
TypeError. -/
def pyIter : JVal → Except PStr (List JVal)
  | .arr xs => .ok xs
  | .str s => .ok (s.map (fun c => .str [c]))
  | .obj kvs => .ok (kvs.map (fun kv => .str kv.1))
  | _ => .error "TypeError".data

/-- Python `v.upper()`: only strings have the method (ASCII uppercasing). -/
def pyUpper : JVal → Except PStr PStr
  | .str s => .ok (s.map Char.toUpper)
  | _ => .error "AttributeError".data

/-- The Python `in` operator: substring test on strings (TypeError for a
non-string needle), `==`-membership on lists, key membership on dicts
(TypeError for an unhashable needle), TypeError on anything else. -/
def pyInOp (needle container : JVal) : Except PStr Bool :=
  match container with
  | .str hay =>
    match needle with
    | .str n => .ok (containsSub hay n)
    | _ => .error "TypeError".data
  | .arr xs => .ok (xs.any (fun x => pyEq x needle))
  | .obj kvs =>
    match needle with
    | .str n => .ok (lookupStr n kvs).isSome
    | .arr _ => .error "TypeError".data
    | .obj _ => .error "TypeError".data
    | _ => .ok false
  | _ => .error "TypeError".data

/-- `list.index(e, start)` (used by the `pathTaken` loop): the first
position `p ≥ start` whose element compares `==` to `e`, or `none`
(Python raises ValueError, which the loop catches). -/
def listIndexFrom : List JVal → JVal → Nat → Option Nat
  | [], _, _ => none
  | x :: xs, e, 0 => if pyEq x e then some 0 else (listIndexFrom xs e 0).map (· + 1)
  | _ :: xs, e, i + 1 => (listIndexFrom xs e i).map (· + 1)

/-- Success message of `pathTaken`. -/
def pathOkMsg : PStr := "Path contains expected sequence".data

/-- Failure message of `pathTaken` for a missing expected entry. -/
def missMsg (e : JVal) : PStr := "Missing node in path: ".data ++ pyStr e

/-- The greedy matching loop of `pathTaken` (server.py lines 171-178):
scan for each expected entry in turn, continuing after the position of the
previous match. -/
def pathTakenLoop (actual : List JVal) : List JVal → Nat → Bool × PStr
  | [], _ => (true, pathOkMsg)
  | e :: es, idx =>
    match listIndexFrom actual e idx with
    | none => (false, missMsg e)
    | some pos => pathTakenLoop actual es (pos + 1)

/-- The scan of `trace.httpOutgoing` (server.py lines 183-188): first call
whose uppercased method matches the filter (when nonempty) and whose url
contains the filter (when truthy), with Python short-circuit evaluation of
the two conditions. -/
def httpFindLoop (method : PStr) (urlContains : JVal) : List JVal → Except PStr Bool
  | [] => .ok false
  | call :: rest => do
    let mV ← pyGetD call "method".data .null
    let m ← pyUpper (pyOr mV (.str []))
    let uV ← pyGetD call "url".data .null
    let u := pyOr uV (.str [])
    if method.isEmpty || method = m then
      if !pyTruthy urlContains then .ok true
      else do
        let c2 ← pyInOp urlContains u
        if c2 then .ok true else httpFindLoop method urlContains rest
    else httpFindLoop method urlContains rest

/-- The seven extraction-based operator names (the tuple on line 194). -/
def opNames : List PStr :=
  ["eq".data, "neq".data, "gt".data, "lt".data,
   "contains".data, "notContains".data, "bodyContains".data]

/-- The body of `eval_assertion`'s `try` block (server.py lines 167-237).
An `Except.error` is an exception escaping the body, converted to a failing
result by the handler on lines 238-239. Operator dispatch uses Python `==`
against string literals, so a non-string operator falls through to the
unknown-operator result. -/
def eval_assertion_core (op args trace : JVal) : Except PStr (Bool × PStr) := do
  if pyEq op (.str "pathTaken".data) then
    let expected ← pyGetD args "nodes".data (.arr [])
    let nodesV ← pyGetD trace "nodes".data (.arr [])
    let ns ← pyIter nodesV
    let actualTypes ← ns.mapM (fun n => pyGetD n "type".data .null)
    let es ← pyIter expected
    return pathTakenLoop actualTypes es 0
  else if pyEq op (.str "httpOutgoing".data) then
    let mV ← pyGetD args "method".data .null
    let method ← pyUpper (pyOr mV (.str []))
    let ucV ← pyGetD args "urlContains".data .null
    let urlContains := pyOr ucV (.str [])
    let callsV ← pyGetD trace "httpOutgoing".data (.arr [])
    let calls ← pyIter callsV
    let found ← httpFindLoop method urlContains calls
    let se ← pyGetD args "exists".data (.boolV true)
    if pyTruthy se then
      return (found,
        (if found then "Found matching outgoing call" else "No matching outgoing call").data)
    else
      return (!found,
        (if !found then "No outgoing call as expected" else "Unexpected outgoing call found").data)
  else if opNames.any (fun s => pyEq op (.str s)) then do
    let jpV ← pyGetD args "jsonpath".data .null
    let actual ← if pyTruthy jpV then jsonpath_get trace jpV else .ok .null
    if pyEq op (.str "bodyContains".data) then
      let cV ← pyGetD args "contains".data .null
      let needle := pyStr cV
      let hay := if isNull actual then [] else pyStr actual
      let ok := containsSub hay needle
      if ok then
        return (true, (sqc :: needle ++ [sqc]) ++ " in ".data ++ (sqc :: hay ++ [sqc]))
      else
        return (false, "Expected ".data ++ (sqc :: needle ++ [sqc]) ++ " in ".data ++ (sqc :: hay ++ [sqc]))
    else if pyEq op (.str "contains".data) then
      let needle ← pyGetD args "value".data .null
      match actual with
      | .arr xs =>
        let ok := xs.any (fun x => pyEq x needle)
        return (ok, if ok then "contains ok".data
                    else "Expected ".data ++ pyStr needle ++ " in ".data ++ pyStr actual)
      | .str hay =>
        match needle with
        | .str n =>
          let ok := containsSub hay n
          return (ok, if ok then "contains ok".data
                      else "Expected ".data ++ pyStr needle ++ " in ".data ++ pyStr actual)
        | _ => .error "TypeError".data
      | _ => return (false, "Actual not list/str: ".data ++ pyStr actual)
    else if pyEq op (.str "notContains".data) then
      let needle ← pyGetD args "value".data .null
      match actual with
      | .arr xs =>
        let ok := !xs.any (fun x => pyEq x needle)
        return (ok, if ok then "notContains ok".data
                    else "Did not expect ".data ++ pyStr needle ++ " in ".data ++ pyStr actual)
      | .str hay =>
        match needle with
        | .str n =>
          let ok := !containsSub hay n
          return (ok, if ok then "notContains ok".data
                      else "Did not expect ".data ++ pyStr needle ++ " in ".data ++ pyStr actual)
        | _ => .error "TypeError".data
      | _ => return (false, "Actual not list/str: ".data ++ pyStr actual)
    else if pyEq op (.str "eq".data) then
      let expected ← pyGetD args "value".data .null
      let ok := pyEq actual expected
      return (ok, pyStr actual ++ (if ok then " == " else " != ").data ++ pyStr expected)
    else if pyEq op (.str "neq".data) then
      let expected ← pyGetD args "value".data .null
      let ok := !pyEq actual expected
      return (ok, pyStr actual ++ (if ok then " != " else " == ").data ++ pyStr expected)
    else if pyEq op (.str "gt".data) || pyEq op (.str "lt".data) then
      let expected ← pyGetD args "value".data .null
      match pyFloat actual, pyFloat expected with
      | some a, some b =>
        if pyEq op (.str "gt".data) then
          let ok : Bool := b < a
          return (ok, floatRepr a ++ (if ok then " > " else " !> ").data ++ floatRepr b)
        else
          let ok : Bool := a < b
          return (ok, floatRepr a ++ (if ok then " < " else " !< ").data ++ floatRepr b)
      | _, _ =>
        return (false, "Non-numeric compare: ".data ++ pyStr actual ++ ", ".data ++ pyStr expected)
    else
      return (false, "Unknown operator: ".data ++ pyStr op)
  else
    return (false, "Unknown operator: ".data ++ pyStr op)

/-- The message produced by the exception handler on line 239. -/
def excMsg (op : JVal) (e : PStr) : PStr :=
  "Exception evaluating ".data ++ pyStr op ++ ": ".data ++ e

/-- `eval_assertion` (server.py lines 165-239): the body runs under
`try`, and any exception is converted to a failing `(False, message)`
result. Total by construction — the model of "never raises". -/
def eval_assertion (op args trace : JVal) : Bool × PStr :=
  match eval_assertion_core op args trace with
  | .ok r => r
  | .error e => (false, excMsg op e)

/-- A character ending the value group of the secret-masking pattern:
regex `[^\s&]+` stops at whitespace or `&`. -/
def stopChar (c : Char) : Bool := isPySpace c || c = '&'

/-- The alternation `token|key|secret|password` of the masking pattern,
in source order. -/
def keywords : List PStr := ["token".data, "key".data, "secret".data, "password".data]

/-- Case-insensitive keyword match at the head of `s` (the `(?i)` flag,
ASCII case folding): the remainder after the keyword, if it matches. -/
def matchCI : PStr → PStr → Option PStr
  | [], s => some s
  | _ :: _, [] => none
  | k :: ks, c :: cs => if c.toLower = k then matchCI ks cs else none

/-- Try each keyword of the alternation in order at the head of `s`;
on success, the keyword length and the remainder. -/
def tryKw : List PStr → PStr → Option (Nat × PStr)
  | [], _ => none
  | kw :: rest, s =>
    match matchCI kw s with
    | some r => some (kw.length, r)
    | none => tryKw rest s

/-- Match the whole pattern `(?i)(token|key|secret|password)=([^\s&]+)` at
the head of `s`: the matched keyword text (original casing), the greedy
nonempty value, and the remainder. -/
def tryMatch (s : PStr) : Option (PStr × PStr × PStr) :=
  match tryKw keywords s with
  | none => none
  | some (n, r) =>
    match r with
    | '=' :: r2 =>
      let v := r2.takeWhile (fun c => !stopChar c)
      if v.isEmpty then none
      else some (s.take n, v, r2.dropWhile (fun c => !stopChar c))
    | _ => none

theorem matchCI_length : ∀ (kw s r : PStr), matchCI kw s = some r → s.length = kw.length + r.length := by
  intro kw
  induction kw with
  | nil => intro s r h; simp [matchCI] at h; simp [h]
  | cons k ks ih =>
    intro s r h
    cases s with
    | nil => simp [matchCI] at h
    | cons c cs =>
      simp only [matchCI] at h
      by_cases hc : c.toLower = k
      · rw [if_pos hc] at h
        have := ih cs r h
        simp [this]
        omega
      · rw [if_neg hc] at h
        exact absurd h (by simp)

theorem tryKw_spec : ∀ (kws : List PStr) (s : PStr) (n : Nat) (r : PStr),
    tryKw kws s = some (n, r) → ∃ kw, kw ∈ kws ∧ matchCI kw s = some r ∧ n = kw.length := by
  intro kws
  induction kws with
  | nil => intro s n r h; simp [tryKw] at h
  | cons kw rest ih =>
    intro s n r h
    simp only [tryKw] at h
    cases hm : matchCI kw s with
    | some r2 =>
      rw [hm] at h
      cases h
      exact ⟨kw, by simp, hm, rfl⟩
    | none =>
      rw [hm] at h
      obtain ⟨kw2, hmem, hm2, hn⟩ := ih s n r h
      exact ⟨kw2, by simp [hmem], hm2, hn⟩

theorem tryMatch_rest_length (s k v r : PStr) (h : tryMatch s = some (k, v, r)) :
    r.length < s.length := by
  unfold tryMatch at h
  cases htk : tryKw keywords s with
  | none => rw [htk] at h; exact absurd h (by simp)
  | some nr =>
    rw [htk] at h
    obtain ⟨n, r0⟩ := nr
    obtain ⟨kw, hmem, hm, hn⟩ := tryKw_spec keywords s n r0 htk
    have hlen : s.length = kw.length + r0.length := matchCI_length kw s r0 hm
    have hkwpos : 1 ≤ kw.length := by
      fin_cases hmem <;> simp
    cases r0 with
    | nil => exact absurd h (by simp)
    | cons c0 r2 =>
      by_cases hc0 : c0 = '='
      · subst hc0
        simp only at h
        by_cases hv : (r2.takeWhile (fun c => !stopChar c)).isEmpty
        · rw [if_pos hv] at h; exact absurd h (by simp)
        · rw [if_neg hv] at h
          cases h
          have hsplit : (r2.takeWhile (fun c => !stopChar c)).length +
              (r2.dropWhile (fun c => !stopChar c)).length = r2.length := by
            have h3 : (r2.takeWhile (fun c => !stopChar c) ++
                r2.dropWhile (fun c => !stopChar c)).length = r2.length := by
              rw [List.takeWhile_append_dropWhile]
            rw [List.length_append] at h3
            exact h3
          have hvpos : 1 ≤ (r2.takeWhile (fun c => !stopChar c)).length := by
            cases hw : r2.takeWhile (fun c => !stopChar c) with
            | nil => rw [hw] at hv; simp at hv
            | cons a b => simp [hw]
          simp only [List.length_cons] at hlen
          omega
      · have : ¬ (c0 :: r2 = '=' :: r2) := by simp [hc0]
        cases hc0' : c0 <;> simp [hc0] at h

/-- `mask_secrets` (server.py lines 104-108): the left-to-right scan of
`re.sub`, replacing each leftmost match of
`(?i)(token|key|secret|password)=([^\s&]+)` by the keyword (original
casing), `=`, and the fixed mask `***`. -/
def mask_secrets : PStr → PStr
  | [] => []
  | c :: rest =>
    match h : tryMatch (c :: rest) with
    | some (kw, _, r) => kw ++ '=' :: '*' :: '*' :: '*' :: mask_secrets r
    | none => c :: mask_secrets rest
termination_by s => s.length
decreasing_by
  all_goals simp_wf
  all_goals
    have hlt := tryMatch_rest_length _ _ _ _ h
    simp at hlt
    omega

/-- An element-tree node (the fragment of `xml.etree.ElementTree` that
`generate_junit_xml` builds): tag, attributes in insertion order, optional
text, children. Serialization by `ET.tostring` is textual output and is not
modelled; the claims concern the document structure. -/
inductive XmlElem where
  | mk (tag : PStr) (attrs : List (PStr × PStr)) (text : Option PStr) (children : List XmlElem)

def XmlElem.tag : XmlElem → PStr
  | .mk t _ _ _ => t

def XmlElem.attrs : XmlElem → List (PStr × PStr)
  | .mk _ a _ _ => a

def XmlElem.text : XmlElem → Option PStr
  | .mk _ _ t _ => t

def XmlElem.children : XmlElem → List XmlElem
  | .mk _ _ _ c => c

/-- Attribute lookup on an element. -/
def XmlElem.attr (x : XmlElem) (k : PStr) : Option PStr :=
  (x.attrs.find? (fun kv => kv.1 = k)).map (fun kv => kv.2)

/-- `AssertionResult` (server.py lines 77-81); pydantic requires the id,
operator and message to be strings and `passed` to be a boolean. -/
structure AssertionResult where
  assertion_id : PStr
  operator : PStr
  passed : Bool
  message : PStr

/-- `Run` (server.py lines 83-90), with timestamps abstracted to a numeric
clock. -/
structure Run where
  id : PStr
  workflow_contract_id : PStr
  status : PStr
  started_at : Nat
  finished_at : Option Nat
  results : List AssertionResult
  junit_path : Option PStr

/-- `generate_junit_xml` (server.py lines 242-251) as the element tree it
builds: a `testsuite` with a `tests` count, one `testcase` per result named
`operator:assertion_id`, and for each failing result a `failure` child
carrying the message as attribute and as text. -/
def generate_junit_xml (run : Run) : XmlElem :=
  .mk "testsuite".data
    [("name".data, "assertions".data), ("tests".data, natDigits run.results.length)]
    none
    (run.results.map (fun r =>
      XmlElem.mk "testcase".data
        [("name".data, r.operator ++ ':' :: r.assertion_id)]
        none
        (if r.passed then []
         else [XmlElem.mk "failure".data [("message".data, r.message)] (some r.message) []])))

/-- pydantic validation of a `str` field: only actual strings pass
(pydantic v2 does not coerce other types to `str`); an error is a
ValidationError raised out of `test_run`. -/
def requireStr : JVal → Except PStr PStr
  | .str s => .ok s
  | _ => .error "ValidationError".data

/-- One iteration of the asserting loop (server.py lines 508-510):
evaluate the assertion document's operator and args against the trace,
then construct the validated `AssertionResult`. -/
def mk_assertion_result (trace a : JVal) : Except PStr AssertionResult := do
  let opV ← pyGetD a "operator".data .null
  let argsV ← pyGetD a "args".data (.obj [])
  let r := eval_assertion opV argsV trace
  let idV ← pyGetD a "id".data .null
  let idS ← requireStr idV
  let opS ← requireStr opV
  return ⟨idS, opS, r.1, r.2⟩

/-- Outcome of the provisioning/execution phase (the `try` block on lines
448-491): a trace, or an exception raised before or after the `EXECUTING`
assignment. The spec treats the executor as an external collaborator; the
n8n branch (network I/O) and the pure mock branch are both instances. -/
inductive ExecOutcome where
  | ok (trace : JVal)
  | raised (enteredExecuting : Bool) (msg : PStr)

/-- The mock execution branch (server.py lines 477-491): take the first
fixture, uppercase its `msg`, and build the simulated trace; a missing
fixture raises (IndexError), caught by the surrounding handler. -/
def build_mock_trace (fixtures : List JVal) : Except PStr JVal := do
  let fixture ←
    match fixtures.head? with
    | some f => Except.ok f
    | none => Except.error "IndexError".data
  let body ← pyGetD fixture "body".data (.obj [])
  let msgV ← pyGetD body "msg".data (.str [])
  let upper := (pyStr msgV).map Char.toUpper
  return .obj [
    ("nodes".data, .arr [
      .obj [("id".data, .str "webhook".data), ("type".data, .str "Webhook".data),
            ("status".data, .str "completed".data)],
      .obj [("id".data, .str "function".data), ("type".data, .str "Function".data),
            ("status".data, .str "completed".data)],
      .obj [("id".data, .str "respond".data), ("type".data, .str "Respond".data),
            ("status".data, .str "completed".data)]]),
    ("httpOutgoing".data, .arr []),
    ("response".data, .obj [("status".data, .num 200),
                            ("body".data, .obj [("upper".data, .str upper)])])]

/-- Report path recorded on the run: `artifacts/<run id>.xml` (the
filesystem root `ROOT_DIR` is environment data and is omitted). -/
def junit_path_of (rid : PStr) : PStr :=
  "artifacts/".data ++ rid ++ ".xml".data

/-- The snapshots of the `Run` after each status assignment in `test_run`
(server.py lines 440-531), given the stored assertion documents and the
executor outcome. Not modelled (external effects): database persistence,
the 400/404 validation replies issued before the run exists, and the
`finally` cleanup of the temporary n8n workflow. `t0`/`tf` abstract the
start and finish clock readings. An `Except.error` is an exception
escaping `test_run` itself while building a result (pydantic validation or
dict access on a malformed assertion document). -/
def test_run_states (rid wcid : PStr) (assertions : List JVal)
    (exec : ExecOutcome) (t0 tf : Nat) : Except PStr (List Run) :=
  let s0 : Run := ⟨rid, wcid, "QUEUED".data, t0, none, [], none⟩
  let s1 : Run := ⟨rid, wcid, "PROVISIONING".data, t0, none, [], none⟩
  let s2 : Run := ⟨rid, wcid, "EXECUTING".data, t0, none, [], none⟩
  match exec with
  | .raised false _ =>
    .ok [s0, s1, ⟨rid, wcid, "FAIL".data, t0, some tf, [], none⟩]
  | .raised true _ =>
    .ok [s0, s1, s2, ⟨rid, wcid, "FAIL".data, t0, some tf, [], none⟩]
  | .ok trace => do
    let s3 : Run := ⟨rid, wcid, "ASSERTING".data, t0, none, [], none⟩
    let results ← assertions.mapM (mk_assertion_result trace)
    let allPass := results.all (fun r => r.passed)
    let s4 : Run := ⟨rid, wcid, (if allPass then "PASS".data else "FAIL".data), t0, some tf,
                     results, some (junit_path_of rid)⟩
    .ok [s0, s1, s2, s3, s4]

/-- The run returned by `test_run`: the last snapshot. -/
def test_run_final (rid wcid : PStr) (assertions : List JVal)
    (exec : ExecOutcome) (t0 tf : Nat) : Except PStr Run :=
  (test_run_states rid wcid assertions exec t0 tf).map
    (fun l => l.getLastD ⟨rid, wcid, "QUEUED".data, t0, none, [], none⟩)

/-- Specification-side relation for C3: `expected` occurs in `actual` as an
order-preserving (not necessarily contiguous) subsequence with strictly
increasing positions, entries compared by Python `==` (actual element on
the left, as in `list.index`). -/
inductive PySublist : List JVal → List JVal → Prop where
  | nil (l : List JVal) : PySublist [] l
  | skip (b : JVal) (l1 l2 : List JVal) : PySublist l1 l2 → PySublist l1 (b :: l2)
  | cons (a b : JVal) (l1 l2 : List JVal) :
      pyEq b a = true → PySublist l1 l2 → PySublist (a :: l1) (b :: l2)

/-- Proof-side helper: first index of an element comparing `==` to `e`. -/
def findFirst : List JVal → JVal → Option Nat
  | [], _ => none
  | y :: ys, e => if pyEq y e then some 0 else (findFirst ys e).map (· + 1)

/-- Proof-side restatement of the greedy loop on the remaining suffix. -/
def sgreedyRes : List JVal → List JVal → Bool × PStr
  | [], _ => (true, pathOkMsg)
  | e :: es, ys =>
    match findFirst ys e with
    | none => (false, missMsg e)
    | some n => sgreedyRes es (ys.drop (n + 1))

theorem findFirst_none {ys : List JVal} {e : JVal} (h : findFirst ys e = none) :
    ∀ y ∈ ys, pyEq y e = false := by
  induction ys with
  | nil => intro y hy; simp at hy
  | cons y0 ys ih =>
    intro y hy
    simp only [findFirst] at h
    by_cases hp : pyEq y0 e
    · rw [if_pos hp] at h; exact absurd h (by simp)
    · rw [if_neg hp] at h
      rcases List.mem_cons.mp hy with h1 | h2
      · subst h1; exact Bool.eq_false_iff.mpr hp
      · exact ih (by simpa using h) y h2

theorem findFirst_some {ys : List JVal} {e : JVal} {n : Nat}
    (h : findFirst ys e = some n) :
    ∃ pre y post, ys = pre ++ y :: post ∧ pre.length = n ∧ pyEq y e = true ∧
      (∀ z ∈ pre, pyEq z e = false) ∧ ys.drop (n + 1) = post := by
  induction ys generalizing n with
  | nil => simp [findFirst] at h
  | cons y0 ys ih =>
    simp only [findFirst] at h
    by_cases hp : pyEq y0 e
    · rw [if_pos hp] at h
      cases h
      exact ⟨[], y0, ys, by simp, rfl, hp, by simp, by simp⟩
    · rw [if_neg hp] at h
      cases hf : findFirst ys e with
      | none => rw [hf] at h; exact absurd h (by simp)
      | some m =>
        rw [hf] at h
        simp at h
        obtain ⟨pre, y, post, hys, hlen, hy, hpre, hdrop⟩ := ih hf
        refine ⟨y0 :: pre, y, post, by simp [hys], by simp [hlen]; omega, hy, ?_, ?_⟩
        · intro z hz
          rcases List.mem_cons.mp hz with h1 | h2
          · subst h1; exact Bool.eq_false_iff.mpr hp
          · exact hpre z h2
        · subst h
          simpa using hdrop

theorem pysub_append_left {l t : List JVal} (s : List JVal) (h : PySublist l t) :
    PySublist l (s ++ t) := by
  induction s with
  | nil => simpa using h
  | cons b s ih => exact PySublist.skip b _ _ ih

theorem pysub_shrink {l1 l2 : List JVal} (h : PySublist l1 l2) :
    ∀ a l1a, l1 = a :: l1a → PySublist l1a l2 := by
  induction h with
  | nil l => intro a l1a hl; exact absurd hl (by simp)
  | skip b l1 l2 hsub ih =>
    intro a l1a hl
    exact PySublist.skip b _ _ (ih a l1a hl)
  | cons a0 b l1 l2 hpe hsub ih =>
    intro a l1a hl
    cases hl
    exact PySublist.skip b _ _ hsub

theorem pysub_head_mem {e : JVal} {es ys : List JVal} (h : PySublist (e :: es) ys) :
    ∃ y ∈ ys, pyEq y e = true := by
  induction ys with
  | nil => cases h
  | cons y ys ih =>
    cases h with
    | skip _ _ _ hsub =>
      obtain ⟨y2, hy2, hp⟩ := ih hsub
      exact ⟨y2, by simp [hy2], hp⟩
    | cons _ _ _ _ hpe hsub => exact ⟨y, by simp, hpe⟩

theorem pysub_after_first_match {e : JVal} {es pre post : List JVal} {y : JVal}
    (hpre : ∀ z ∈ pre, pyEq z e = false) (hy : pyEq y e = true)
    (h : PySublist (e :: es) (pre ++ y :: post)) : PySublist es post := by
  induction pre with
  | nil =>
    simp only [List.nil_append] at h
    cases h with
    | skip _ _ _ hsub => exact pysub_shrink hsub e es rfl
    | cons _ _ _ _ hpe hsub => exact hsub
  | cons z pre ih =>
    simp only [List.cons_append] at h
    cases h with
    | skip _ _ _ hsub => exact ih (fun w hw => hpre w (by simp [hw])) hsub
    | cons _ _ _ _ hpe hsub =>
      have := hpre z (by simp)
      rw [this] at hpe
      exact absurd hpe (by simp)

theorem sgreedy_iff : ∀ (es ys : List JVal),
    (sgreedyRes es ys).1 = true ↔ PySublist es ys := by
  intro es
  induction es with
  | nil => intro ys; simp [sgreedyRes]; exact PySublist.nil ys
  | cons e es ih =>
    intro ys
    simp only [sgreedyRes]
    cases hf : findFirst ys e with
    | none =>
      simp only
      constructor
      · intro h; exact absurd h (by simp)
      · intro h
        obtain ⟨y, hy, hp⟩ := pysub_head_mem h
        have := findFirst_none hf y hy
        rw [this] at hp
        exact absurd hp (by simp)
    | some n =>
      simp only
      obtain ⟨pre, y, post, hys, hlen, hy, hpre, hdrop⟩ := findFirst_some hf
      rw [hdrop]
      rw [ih post]
      constructor
      · intro hsub
        rw [hys]
        exact pysub_append_left pre (PySublist.cons e y es post hy hsub)
      · intro hsub
        rw [hys] at hsub
        exact pysub_after_first_match hpre hy hsub

theorem sgreedy_false : ∀ (es ys : List JVal) (m : PStr),
    sgreedyRes es ys = (false, m) →
    ∃ k, k < es.length ∧ m = missMsg (es.getD k .null) ∧
      PySublist (es.take k) ys ∧ ¬ PySublist (es.take (k + 1)) ys := by
  intro es
  induction es with
  | nil => intro ys m h; simp [sgreedyRes] at h
  | cons e es ih =>
    intro ys m h
    simp only [sgreedyRes] at h
    cases hf : findFirst ys e with
    | none =>
      rw [hf] at h
      simp only at h
      cases h
      refine ⟨0, by simp, by simp, PySublist.nil ys, ?_⟩
      intro hsub
      simp only [List.take_succ_cons, List.take_zero] at hsub
      obtain ⟨y, hy, hp⟩ := pysub_head_mem hsub
      have := findFirst_none hf y hy
      rw [this] at hp
      exact absurd hp (by simp)
    | some n =>
      rw [hf] at h
      simp only at h
      obtain ⟨pre, y, post, hys, hlen, hy, hpre, hdrop⟩ := findFirst_some hf
      rw [hdrop] at h
      obtain ⟨k, hk, hm, hsub, hnsub⟩ := ih post m h
      refine ⟨k + 1, by simp; omega, by simpa using hm, ?_, ?_⟩
      · rw [hys]
        simp only [List.take_succ_cons]
        exact pysub_append_left pre (PySublist.cons e y _ post hy hsub)
      · intro hbad
        rw [hys] at hbad
        simp only [List.take_succ_cons] at hbad
        exact hnsub (pysub_after_first_match hpre hy hbad)

theorem listIndexFrom_zero : ∀ (ys : List JVal) (e : JVal),
    listIndexFrom ys e 0 = findFirst ys e := by
  intro ys e
  induction ys with
  | nil => simp [listIndexFrom, findFirst]
  | cons y ys ih =>
    simp only [listIndexFrom, findFirst]
    by_cases hp : pyEq y e
    · simp [hp]
    · simp [hp, ih]

theorem listIndexFrom_eq : ∀ (i : Nat) (ys : List JVal) (e : JVal),
    listIndexFrom ys e i = (findFirst (ys.drop i) e).map (· + i) := by
  intro i
  induction i with
  | zero =>
    intro ys e
    rw [listIndexFrom_zero]
    simp
  | succ i ih =>
    intro ys e
    cases ys with
    | nil => simp [listIndexFrom, findFirst]
    | cons y ys =>
      simp only [listIndexFrom, List.drop_succ_cons]
      rw [ih ys e]
      cases findFirst (ys.drop i) e <;> simp
      omega

theorem pathTakenLoop_eq (actual : List JVal) : ∀ (es : List JVal) (idx : Nat),
    pathTakenLoop actual es idx = sgreedyRes es (actual.drop idx) := by
  intro es
  induction es with
  | nil => intro idx; simp [pathTakenLoop, sgreedyRes]
  | cons e es ih =>
    intro idx
    simp only [pathTakenLoop, sgreedyRes]
    rw [listIndexFrom_eq idx actual e]
    cases hf : findFirst (actual.drop idx) e with
    | none => simp
    | some n =>
      have hred : Option.map (fun x => x + idx) (some n) = some (n + idx) := rfl
      rw [hred]
      show pathTakenLoop actual es (n + idx + 1) =
        sgreedyRes es (List.drop (n + 1) (List.drop idx actual))
      rw [ih (n + idx + 1)]
      rw [List.drop_drop]
      congr 2
      omega

theorem eval_pathTaken_eq (akvs tkvs : List (PStr × JVal))
    (expected nodes actualTypes : List JVal)
    (hak : lookupStr "nodes".data akvs = some (.arr expected))
    (htk : lookupStr "nodes".data tkvs = some (.arr nodes))
    (hmap : nodes.mapM (fun n => pyGetD n "type".data .null) = Except.ok actualTypes) :
    eval_assertion (.str "pathTaken".data) (.obj akvs) (.obj tkvs) =
      sgreedyRes expected actualTypes := by
  unfold eval_assertion eval_assertion_core
  simp only [pyEq, decide_True, if_true, ite_true, eq_self_iff_true, bind, Except.bind, pyIter]
  rw [show pyGetD (JVal.obj akvs) "nodes".data (JVal.arr []) = Except.ok (JVal.arr expected) from
        by simp [pyGetD, hak],
      show pyGetD (JVal.obj tkvs) "nodes".data (JVal.arr []) = Except.ok (JVal.arr nodes) from
        by simp [pyGetD, htk]]
  simp only [hmap, pure, Except.pure]
  rw [pathTakenLoop_eq actualTypes expected 0, List.drop_zero]

/-- C3: for a trace whose `nodes` entry is a list of node objects and an
assertion whose `nodes` argument is a list, `pathTaken` passes iff the
expected entries occur in the trace's node-type sequence as an
order-preserving (not necessarily contiguous) subsequence, matched greedily
left-to-right with strictly increasing positions; and on failure the
message reports the first expected entry that could not be matched — the
`k`-th one, where the first `k` expected entries embed but the first `k+1`
do not. -/
theorem C3_pathTaken_subsequence (akvs tkvs : List (PStr × JVal))
    (expected nodes actualTypes : List JVal)
    (hak : lookupStr "nodes".data akvs = some (.arr expected))
    (htk : lookupStr "nodes".data tkvs = some (.arr nodes))
    (hmap : nodes.mapM (fun n => pyGetD n "type".data .null) = Except.ok actualTypes) :
    ((eval_assertion (.str "pathTaken".data) (.obj akvs) (.obj tkvs)).1 = true ↔
      PySublist expected actualTypes) ∧
    (∀ m, eval_assertion (.str "pathTaken".data) (.obj akvs) (.obj tkvs) = (false, m) →
      ∃ k, k < expected.length ∧ m = missMsg (expected.getD k .null) ∧
        PySublist (expected.take k) actualTypes ∧
        ¬ PySublist (expected.take (k + 1)) actualTypes) := by
  have he := eval_pathTaken_eq akvs tkvs expected nodes actualTypes hak htk hmap
  constructor
  · rw [he]
    exact sgreedy_iff expected actualTypes
  · intro m hm
    rw [he] at hm
    exact sgreedy_false expected actualTypes m hm

/-- Witness for C3 at the spec's example: expected `[Webhook, Respond]`
embeds in actual `[Webhook, Function, Respond]`. -/
theorem C3_pathTaken_subsequence_witness :
    PySublist [JVal.str "Webhook".data, JVal.str "Respond".data]
      [JVal.str "Webhook".data, JVal.str "Function".data, JVal.str "Respond".data] := by
  have h := (C3_pathTaken_subsequence
    [("nodes".data, JVal.arr [JVal.str "Webhook".data, JVal.str "Respond".data])]
    [("nodes".data, JVal.arr
      [JVal.obj [("type".data, JVal.str "Webhook".data)],
       JVal.obj [("type".data, JVal.str "Function".data)],
       JVal.obj [("type".data, JVal.str "Respond".data)]])]
    [JVal.str "Webhook".data, JVal.str "Respond".data]
    [JVal.obj [("type".data, JVal.str "Webhook".data)],
     JVal.obj [("type".data, JVal.str "Function".data)],
     JVal.obj [("type".data, JVal.str "Respond".data)]]
    [JVal.str "Webhook".data, JVal.str "Function".data, JVal.str "Respond".data]
    rfl rfl rfl).1
  exact h.mp (by
    simp [eval_assertion, eval_assertion_core, pyEq, pyGetD, pyIter, lookupStr,
      List.mapM, List.mapM.loop, bind, Except.bind, pure, Except.pure,
      pathTakenLoop, listIndexFrom])

/-- C1: `eval_assertion` is total — it returns the `(passed, message)` pair
computed by the body when the body completes, and converts any exception
raised by the body into a failing result (`passed = false`) whose message
names the operator and the error, exactly as the `try/except` on lines
167-239 does. -/
theorem C1_eval_assertion_never_raises (op args trace : JVal) :
    (∀ r, eval_assertion_core op args trace = .ok r → eval_assertion op args trace = r) ∧
    (∀ e, eval_assertion_core op args trace = .error e →
      eval_assertion op args trace = (false, excMsg op e)) := by
  constructor
  · intro r h
    simp [eval_assertion, h]
  · intro e h
    simp [eval_assertion, h]

/-- Witness for C1: a trace whose `nodes` entry is a number makes the body
raise (iterating a non-iterable), and the result is the converted failure. -/
theorem C1_eval_assertion_never_raises_witness :
    eval_assertion (.str "pathTaken".data) (.obj []) (.obj [("nodes".data, .num 5)]) =
      (false, excMsg (.str "pathTaken".data) "TypeError".data) :=
  (C1_eval_assertion_never_raises (.str "pathTaken".data) (.obj [])
    (.obj [("nodes".data, .num 5)])).2 "TypeError".data (by
      simp [eval_assertion_core, pyEq, pyGetD, pyIter, lookupStr, bind, Except.bind])

/-- C7: for the `gt` and `lt` operators, when either the extracted value or
the argument value cannot be coerced to a number (`pyFloat` is the model of
the `float(...)` coercion wrapped in `try/except` on lines 226-230), the
result is a failing pair — `passed = false` with the non-numeric-compare
message — and not an exception. -/
theorem C7_gt_lt_non_numeric (opS : PStr) (akvs : List (PStr × JVal)) (trace : JVal)
    (jpS : PStr) (v actual : JVal)
    (hop : opS = "gt".data ∨ opS = "lt".data)
    (hjp : lookupStr "jsonpath".data akvs = some (.str jpS))
    (hval : lookupStr "value".data akvs = some v)
    (hjpT : jpS ≠ [])
    (hext : jsonpath_get trace (.str jpS) = Except.ok actual)
    (hnn : pyFloat actual = none ∨ pyFloat v = none) :
    eval_assertion (.str opS) (.obj akvs) trace =
      (false, "Non-numeric compare: ".data ++ pyStr actual ++ ", ".data ++ pyStr v) := by
  cases jpS with
  | nil => exact absurd rfl hjpT
  | cons c0 cs =>
  have hT : pyTruthy (.str (c0 :: cs)) = true := by simp [pyTruthy]
  rcases hop with hop | hop <;> subst hop <;>
  · unfold eval_assertion eval_assertion_core
    simp only [pyEq, pyGetD, hjp, hval, Option.getD_some, bind, Except.bind, hT, hext,
      opNames, List.any_cons, List.any_nil, if_true, ite_true, if_false, ite_false,
      Bool.or_false, Bool.false_or, decide_True, decide_False]
    rcases hnn with hA | hB
    · rw [hA]
      cases hB : pyFloat v <;> rfl
    · cases hA : pyFloat actual <;> rw [hB] <;> rfl

theorem splitOnChar_no (c : Char) : ∀ (l : PStr), l.contains c = false →
    splitOnChar c l = [l] := by
  intro l
  induction l with
  | nil => intro h; rfl
  | cons b r ih =>
    intro h
    simp only [List.contains_cons, Bool.or_eq_false_iff] at h
    obtain ⟨h1, h2⟩ := h
    have hb : ¬ b = c := by
      intro hh
      subst hh
      simp at h1
    simp only [splitOnChar, if_neg hb, ih h2]

theorem splitOnChar_app (c : Char) : ∀ (a b : PStr), a.contains c = false →
    splitOnChar c (a ++ c :: b) = a :: splitOnChar c b := by
  intro a
  induction a with
  | nil =>
    intro b h
    simp [splitOnChar]
  | cons x a ih =>
    intro b h
    simp only [List.contains_cons, Bool.or_eq_false_iff] at h
    obtain ⟨h1, h2⟩ := h
    have hx : ¬ x = c := by
      intro hh
      subst hh
      simp at h1
    simp only [List.cons_append, splitOnChar, if_neg hx, List.append_eq, ih b h2]

theorem charIdx_app (c : Char) : ∀ (a b : PStr), a.contains c = false →
    charIdx c (a ++ c :: b) = a.length := by
  intro a
  induction a with
  | nil => intro b h; simp [charIdx]
  | cons x a ih =>
    intro b h
    simp only [List.contains_cons, Bool.or_eq_false_iff] at h
    obtain ⟨h1, h2⟩ := h
    have hx : ¬ x = c := by
      intro hh
      subst hh
      simp at h1
    simp only [List.cons_append, charIdx, if_neg hx, List.append_eq, ih b h2, List.length_cons]

theorem jsonpath_dotless (data : JVal) (part : PStr) (hnd : part.contains '.' = false)
    (hne : part ≠ []) :
    jsonpath_get data (.str ('$' :: '.' :: part)) = jwalk data [part] := by
  have hsplit : splitOnChar '.' ('$' :: '.' :: part) = [['$'], part] := by
    simp only [splitOnChar, if_neg (show ¬ '$' = '.' from by decide),
      if_pos (show '.' = '.' from rfl), splitOnChar_no '.' part hnd, if_true, ite_true]
  have hpe : part.isEmpty = false := by
    cases part with
    | nil => exact absurd rfl hne
    | cons a b => rfl
  unfold jsonpath_get
  have ht : pyTruthy (.str ('$' :: '.' :: part)) = true := by simp [pyTruthy]
  rw [ht]
  show jwalk data
      (((splitOnChar '.' ('$' :: '.' :: part)).filter (fun p => !p.isEmpty)).drop 1) =
    jwalk data [part]
  rw [hsplit]
  simp only [List.filter_cons, List.filter_nil, hpe, Bool.not_false, if_true, ite_true,
    List.isEmpty_cons, Bool.not_true, if_false, ite_false, List.drop_succ_cons,
    List.drop_zero]

theorem jsonpath_parts (data : JVal) (s0 : PStr) :
    jsonpath_get data (.str ('$' :: s0)) =
      jwalk data (((splitOnChar '.' ('$' :: s0)).filter (fun p => !p.isEmpty)).drop 1) := by
  unfold jsonpath_get
  have ht : pyTruthy (.str ('$' :: s0)) = true := by simp [pyTruthy]
  rw [ht]
  rfl

/-- C10: the walk of `jsonpath_get` starts only after the first nonempty
dot-separated segment, so for a query beginning with `$` the whole first
segment is ignored regardless of its content — `$anything.rest` resolves
exactly like `$.rest` — and a query that is a single segment (`$`,
`$anything`) returns the whole document. -/
theorem C10_root_segment_ignored (data : JVal) (seg rest : PStr)
    (hseg : seg.contains '.' = false) :
    (jsonpath_get data (.str ('$' :: (seg ++ '.' :: rest))) =
      jsonpath_get data (.str ('$' :: '.' :: rest))) ∧
    jsonpath_get data (.str ('$' :: seg)) = Except.ok data := by
  have hca : ('$' :: seg).contains '.' = false := by
    simp only [List.contains_cons, Bool.or_eq_false_iff]
    exact ⟨by decide, hseg⟩
  constructor
  · rw [jsonpath_parts data (seg ++ '.' :: rest), jsonpath_parts data ('.' :: rest)]
    have h1 : ('$' :: (seg ++ '.' :: rest)) = ('$' :: seg) ++ '.' :: rest := by simp
    have h2 : ('$' :: '.' :: rest) = ['$'] ++ '.' :: rest := by simp
    rw [h1, h2, splitOnChar_app '.' ('$' :: seg) rest hca,
      splitOnChar_app '.' ['$'] rest (by decide)]
    simp only [List.filter_cons, List.isEmpty_cons, Bool.not_false, if_true, ite_true,
      List.drop_succ_cons, List.drop_zero]
  · rw [jsonpath_parts data seg, splitOnChar_no '.' ('$' :: seg) hca]
    simp only [List.filter_cons, List.filter_nil, List.isEmpty_cons, Bool.not_false,
      if_true, ite_true, List.drop_succ_cons, List.drop_zero]
    rfl

/-- Witness for C10: `$anything.response` resolves like `$.response`, and
`$xyz` returns the whole document. -/
theorem C10_root_segment_ignored_witness :
    (jsonpath_get (JVal.obj [("response".data, JVal.num 7)])
        (.str ('$' :: ("anything".data ++ '.' :: "response".data))) =
      jsonpath_get (JVal.obj [("response".data, JVal.num 7)])
        (.str ('$' :: '.' :: "response".data))) ∧
    jsonpath_get (JVal.obj [("response".data, JVal.num 7)])
        (.str ('$' :: "anything".data)) =
      Except.ok (JVal.obj [("response".data, JVal.num 7)]) :=
  C10_root_segment_ignored (JVal.obj [("response".data, JVal.num 7)])
    "anything".data "response".data (by decide)

theorem contains_app (c : Char) : ∀ (a b : PStr),
    (a ++ b).contains c = (a.contains c || b.contains c) := by
  intro a b
  induction a with
  | nil => simp
  | cons x a ih => simp [List.contains_cons, ih, Bool.or_assoc]

/-- C6: on a document whose `field` entry holds a sequence, the bracketed
query `$.field[i]` with a natural-number index extracts exactly the `i`-th
element when `i` is in bounds, and yields `None` (absent) when `i` is out
of bounds — the model of lines 141-157 of `jsonpath_get`. -/
theorem C6_bracket_index (kvs : List (PStr × JVal)) (field s : PStr)
    (xs : List JVal) (i : Nat)
    (hfd : field.contains '.' = false) (hfb : field.contains '[' = false)
    (hsd : s.contains '.' = false)
    (hparse : pyIntStr s = some ((i : Int)))
    (hlook : lookupStr field kvs = some (.arr xs)) :
    jsonpath_get (.obj kvs) (.str ('$' :: '.' :: (field ++ '[' :: s ++ [']']))) =
      Except.ok (if h : i < xs.length then xs.get ⟨i, h⟩ else .null) := by
  have hnd : (field ++ '[' :: s ++ [']']).contains '.' = false := by
    rw [contains_app]
    simp only [List.contains_cons, contains_app, hfd, hsd]
    decide
  have hpp : field ++ '[' :: s ++ [']'] = (field ++ '[' :: s) ++ [']'] := by simp
  have hne : field ++ '[' :: s ++ [']'] ≠ [] := by
    intro h
    have := congrArg List.length h
    simp at this
  rw [jsonpath_dotless _ _ hnd hne]
  have hLast : (field ++ '[' :: s ++ [']']).getLast? = some ']' := by
    rw [hpp]
    exact List.getLast?_concat _
  have hCon : (field ++ '[' :: s ++ [']']).contains '[' = true := by
    rw [contains_app]
    simp [List.contains_cons]
  have hidx : charIdx '[' (field ++ '[' :: s ++ [']']) = field.length := by
    simpa using charIdx_app '[' field (s ++ [']']) hfb
  have htake : (field ++ '[' :: s ++ [']']).take field.length = field := by
    simpa using List.take_left field ('[' :: s ++ [']'])
  have hlen1 : (field ++ '[' :: s ++ [']']).length - 1 = (field ++ '[' :: s).length := by
    simp
  have htake1 : (field ++ '[' :: s ++ [']']).take
      ((field ++ '[' :: s ++ [']']).length - 1) = field ++ '[' :: s := by
    rw [hlen1, hpp]
    exact List.take_left _ _
  have hdrop : (field ++ '[' :: s).drop (field.length + 1) = s := by
    have h2 : field ++ '[' :: s = (field ++ ['[']) ++ s := by simp
    have h3 : field.length + 1 = (field ++ ['[']).length := by simp
    rw [h2, h3]
    exact List.drop_left _ _
  unfold jwalk
  simp only [hLast, hCon, hidx, htake, htake1, hdrop, hparse, hlook, decide_True,
    Bool.and_true, Bool.true_and, if_true, ite_true]
  by_cases hi : i < xs.length
  · have hsub : pySubscript (JVal.arr xs) ((i : Int)) = some (xs.get ⟨i, hi⟩) := by
      show (if 0 ≤ (i : Int) ∧ (i : Int) < (xs.length : Int) then xs.get? ((i : Int)).toNat
            else if -(xs.length : Int) ≤ (i : Int) ∧ (i : Int) < 0 then
              xs.get? ((i : Int) + xs.length).toNat
            else none) = some (xs.get ⟨i, hi⟩)
      rw [if_pos ⟨Int.ofNat_nonneg i, by omega⟩]
      simp [List.get?_eq_get hi]
    rw [hsub, dif_pos hi]
    rfl
  · have hA : ¬(0 ≤ (i : Int) ∧ (i : Int) < (xs.length : Int)) := by
      intro hc
      obtain ⟨h1c, h2c⟩ := hc
      omega
    have hB : ¬(-(xs.length : Int) ≤ (i : Int) ∧ (i : Int) < 0) := by
      intro hc
      obtain ⟨h1c, h2c⟩ := hc
      omega
    have hsub : pySubscript (JVal.arr xs) ((i : Int)) = none := by
      show (if 0 ≤ (i : Int) ∧ (i : Int) < (xs.length : Int) then xs.get? ((i : Int)).toNat
            else if -(xs.length : Int) ≤ (i : Int) ∧ (i : Int) < 0 then
              xs.get? ((i : Int) + xs.length).toNat
            else none) = none
      rw [if_neg hA, if_neg hB]
    rw [hsub, dif_neg hi]

/-- Witness for C6: `$.a[1]` on `{a: [10, 20, 30]}` yields 20. -/
theorem C6_bracket_index_witness :
    jsonpath_get (.obj [("a".data, JVal.arr [JVal.num 10, JVal.num 20, JVal.num 30])])
      (.str ('$' :: '.' :: ("a".data ++ '[' :: "1".data ++ [']']))) =
      Except.ok (JVal.num 20) := by
  have h := C6_bracket_index [("a".data, JVal.arr [JVal.num 10, JVal.num 20, JVal.num 30])]
    "a".data "1".data [JVal.num 10, JVal.num 20, JVal.num 30] 1
    (by decide) (by decide) (by decide) rfl rfl
  simpa using h

/-- Witness for C7: extracted value `"abc"` compared with `"1"` under `gt`
fails without raising. -/
theorem C7_gt_lt_non_numeric_witness :
    eval_assertion (.str "gt".data)
      (.obj [("jsonpath".data, .str "$.x".data), ("value".data, .str "1".data)])
      (.obj [("x".data, .str "abc".data)]) =
      (false, "Non-numeric compare: abc, 1".data) := by
  have h := C7_gt_lt_non_numeric "gt".data
    [("jsonpath".data, .str "$.x".data), ("value".data, .str "1".data)]
    (.obj [("x".data, .str "abc".data)]) "$.x".data (.str "1".data) (.str "abc".data)
    (Or.inl rfl) rfl rfl (by decide) rfl (Or.inl rfl)
  simpa [pyStr] using h

theorem mapM_ok_length {α β : Type} (f : α → Except PStr β) :
    ∀ (l : List α) (r : List β), l.mapM f = Except.ok r → r.length = l.length := by
  intro l
  induction l with
  | nil =>
    intro r h
    simp only [List.mapM_nil, pure, Except.pure] at h
    cases h
    rfl
  | cons a l ih =>
    intro r h
    simp only [List.mapM_cons, bind, Except.bind, pure, Except.pure] at h
    cases hfa : f a with
    | error e => rw [hfa] at h; exact absurd h (by simp)
    | ok b =>
      rw [hfa] at h
      cases hml : l.mapM f with
      | error e => rw [hml] at h; exact absurd h (by simp)
      | ok bs =>
        rw [hml] at h
        cases h
        simp [ih bs hml]

theorem test_run_states_ok (rid wcid : PStr) (assertions : List JVal) (trace : JVal)
    (t0 tf : Nat) (results : List AssertionResult)
    (hm : assertions.mapM (mk_assertion_result trace) = Except.ok results) :
    test_run_states rid wcid assertions (.ok trace) t0 tf = Except.ok
      [⟨rid, wcid, "QUEUED".data, t0, none, [], none⟩,
       ⟨rid, wcid, "PROVISIONING".data, t0, none, [], none⟩,
       ⟨rid, wcid, "EXECUTING".data, t0, none, [], none⟩,
       ⟨rid, wcid, "ASSERTING".data, t0, none, [], none⟩,
       ⟨rid, wcid, (if results.all (fun r => r.passed) then "PASS".data else "FAIL".data),
        t0, some tf, results, some (junit_path_of rid)⟩] := by
  unfold test_run_states
  simp only [hm, bind, Except.bind, pure, Except.pure]

/-- C2 (amended): along every run of the lifecycle, the results sequence is
empty in the QUEUED, PROVISIONING, EXECUTING and ASSERTING snapshots; a
nonempty results sequence occurs only in a terminal PASS/FAIL snapshot and
then has exactly one entry per input assertion; and when the execution
phase succeeds, the final run is terminal with one result per assertion.
(The original biconditional fails on the code: an empty assertion list
yields PASS with zero results, and an execution failure yields FAIL with
zero results — see the counterexample.) -/
theorem C2_results_length_invariant (rid wcid : PStr) (assertions : List JVal)
    (exec : ExecOutcome) (t0 tf : Nat) (states : List Run)
    (h : test_run_states rid wcid assertions exec t0 tf = Except.ok states) :
    (∀ r ∈ states,
      ((r.status = "QUEUED".data ∨ r.status = "PROVISIONING".data ∨
        r.status = "EXECUTING".data ∨ r.status = "ASSERTING".data) → r.results = []) ∧
      (r.results ≠ [] →
        (r.status = "PASS".data ∨ r.status = "FAIL".data) ∧
        r.results.length = assertions.length)) ∧
    (∀ trace, exec = ExecOutcome.ok trace →
      ∃ r, states.getLast? = some r ∧ r.results.length = assertions.length ∧
        (r.status = "PASS".data ∨ r.status = "FAIL".data)) := by
  cases exec with
  | raised b msg =>
    cases b <;>
    · simp only [test_run_states] at h
      cases h
      constructor
      · intro r hr
        simp only [List.mem_cons, List.mem_singleton, List.not_mem_nil] at hr
        rcases hr with rfl | rfl | rfl | rfl | h0 <;>
          first
          | exact ⟨fun _ => rfl, fun hc => absurd rfl hc⟩
          | cases h0
      · intro trace htr
        cases htr
  | ok trace =>
    simp only [test_run_states, bind, Except.bind] at h
    cases hm : assertions.mapM (mk_assertion_result trace) with
    | error e =>
      rw [hm] at h
      exact absurd h (by simp)
    | ok results =>
      rw [hm] at h
      simp only [pure, Except.pure] at h
      cases h
      have hlen : results.length = assertions.length := mapM_ok_length _ _ _ hm
      constructor
      · intro r hr
        simp only [List.mem_cons, List.mem_singleton, List.not_mem_nil] at hr
        rcases hr with rfl | rfl | rfl | rfl | rfl | h0
        · exact ⟨fun _ => rfl, fun hc => absurd rfl hc⟩
        · exact ⟨fun _ => rfl, fun hc => absurd rfl hc⟩
        · exact ⟨fun _ => rfl, fun hc => absurd rfl hc⟩
        · exact ⟨fun _ => rfl, fun hc => absurd rfl hc⟩
        · constructor
          · intro hst
            by_cases hall : results.all (fun r => r.passed)
            · simp only [hall, if_true, ite_true] at hst
              rcases hst with h1 | h1 | h1 | h1 <;> exact absurd h1 (by decide)
            · simp only [hall, if_false, ite_false] at hst
              rcases hst with h1 | h1 | h1 | h1 <;> exact absurd h1 (by decide)
          · intro _
            refine ⟨?_, hlen⟩
            by_cases hall : results.all (fun r => r.passed)
            · simp [hall]
            · simp [hall]
        · cases h0
      · intro trace2 htr
        refine ⟨_, rfl, hlen, ?_⟩
        by_cases hall : results.all (fun r => r.passed)
        · simp [hall]
        · simp [hall]

/-- Counterexample to C2 as stated: with an empty assertion pack and a
successful (mock) execution, the returned run has status PASS and an empty
results sequence, so "results non-empty iff status is PASS or FAIL" is
false on the code. -/
theorem C2_results_length_invariant_counterexample :
    test_run_final "r1".data "w1".data [] (ExecOutcome.ok (JVal.obj [])) 0 1 =
      Except.ok ⟨"r1".data, "w1".data, "PASS".data, 0, some 1, [],
        some (junit_path_of "r1".data)⟩ := by
  rfl

/-- Witness for C2 at a provisioning failure: the QUEUED snapshot has empty
results. -/
theorem C2_results_length_invariant_witness :
    (⟨"r".data, "w".data, "QUEUED".data, 0, none, [], none⟩ : Run).results = [] :=
  ((C2_results_length_invariant "r".data "w".data []
      (ExecOutcome.raised false "b".data) 0 1 _ rfl).1
    ⟨"r".data, "w".data, "QUEUED".data, 0, none, [], none⟩
    (List.mem_cons_self _ _)).1 (Or.inl rfl)

/-- C4: when the assertion phase is reached (the execution phase produced a
trace and every result was built), the terminal status is PASS iff every
AssertionResult passed and FAIL otherwise; an empty assertion sequence
yields PASS with zero results. -/
theorem C4_terminal_verdict (rid wcid : PStr) (assertions : List JVal) (trace : JVal)
    (t0 tf : Nat) (results : List AssertionResult) (run : Run)
    (hm : assertions.mapM (mk_assertion_result trace) = Except.ok results)
    (hf : test_run_final rid wcid assertions (.ok trace) t0 tf = Except.ok run) :
    run.results = results ∧
    (run.status = "PASS".data ↔ ∀ r ∈ results, r.passed = true) ∧
    (¬ (∀ r ∈ results, r.passed = true) → run.status = "FAIL".data) ∧
    (assertions = [] → run.status = "PASS".data ∧ run.results = []) := by
  have hrun : run = ⟨rid, wcid,
      (if results.all (fun r => r.passed) then "PASS".data else "FAIL".data),
      t0, some tf, results, some (junit_path_of rid)⟩ := by
    unfold test_run_final at hf
    rw [test_run_states_ok rid wcid assertions trace t0 tf results hm] at hf
    simp only [Except.map] at hf
    cases hf
    rfl
  subst hrun
  refine ⟨rfl, ?_, ?_, ?_⟩
  · cases hall : results.all (fun r => r.passed) with
    | true =>
      have hforall := List.all_eq_true.mp hall
      simp only [hall, if_true, ite_true]
      constructor
      · intro _
        exact fun r hr => hforall r hr
      · intro _
        trivial
    | false =>
      simp only [hall, if_false, ite_false]
      constructor
      · intro h1
        exact absurd h1 (by decide)
      · intro hforall
        have : results.all (fun r => r.passed) = true := by
          simpa [List.all_eq_true] using hforall
        rw [hall] at this
        exact absurd this (by simp)
  · intro hnot
    cases hall : results.all (fun r => r.passed) with
    | true =>
      exact absurd (by simpa [List.all_eq_true] using hall) hnot
    | false =>
      simp [hall]
  · intro he
    subst he
    simp only [List.mapM_nil, pure, Except.pure] at hm
    cases hm
    simp

/-- Witness for C4: empty assertion pack with a successful execution gives
terminal PASS with zero results. -/
theorem C4_terminal_verdict_witness :
    ([] : List JVal).mapM (mk_assertion_result (JVal.obj [])) = Except.ok [] ∧
    test_run_final "r".data "w".data [] (.ok (JVal.obj [])) 0 1 =
      Except.ok ⟨"r".data, "w".data, "PASS".data, 0, some 1, [],
        some (junit_path_of "r".data)⟩ ∧
    (⟨"r".data, "w".data, "PASS".data, 0, some 1, [],
      some (junit_path_of "r".data)⟩ : Run).status = "PASS".data :=
  ⟨rfl, rfl,
    ((C4_terminal_verdict "r".data "w".data [] (JVal.obj []) 0 1 []
      ⟨"r".data, "w".data, "PASS".data, 0, some 1, [],
        some (junit_path_of "r".data)⟩ rfl rfl).2.2.2 rfl).1⟩

/-- C5: a provisioning or execution failure terminates the run with status
FAIL, zero AssertionResults, a set finish timestamp and no report
reference, and no snapshot of the lifecycle is in the ASSERTING phase; by
contrast, a successful execution always returns a run with a report
reference and one result per assertion. -/
theorem C5_exec_failure (rid wcid : PStr) (assertions : List JVal) (b : Bool)
    (msg : PStr) (t0 tf : Nat) (states : List Run) (run : Run)
    (hs : test_run_states rid wcid assertions (.raised b msg) t0 tf = Except.ok states)
    (hf : test_run_final rid wcid assertions (.raised b msg) t0 tf = Except.ok run) :
    run.status = "FAIL".data ∧ run.results = [] ∧ run.finished_at = some tf ∧
    run.junit_path = none ∧ (∀ s ∈ states, s.status ≠ "ASSERTING".data) ∧
    (∀ trace run2, test_run_final rid wcid assertions (.ok trace) t0 tf = Except.ok run2 →
      run2.junit_path = some (junit_path_of rid) ∧
      run2.results.length = assertions.length) := by
  have hcontrast : ∀ trace run2,
      test_run_final rid wcid assertions (.ok trace) t0 tf = Except.ok run2 →
      run2.junit_path = some (junit_path_of rid) ∧
      run2.results.length = assertions.length := by
    intro trace run2 hf2
    cases hm : assertions.mapM (mk_assertion_result trace) with
    | error e =>
      unfold test_run_final test_run_states at hf2
      simp only [bind, Except.bind, hm, Except.map] at hf2
      exact absurd hf2 (by simp)
    | ok results =>
      unfold test_run_final at hf2
      rw [test_run_states_ok rid wcid assertions trace t0 tf results hm] at hf2
      simp only [Except.map] at hf2
      cases hf2
      exact ⟨rfl, mapM_ok_length _ _ _ hm⟩
  cases b with
  | false =>
    simp only [test_run_states] at hs
    cases hs
    have hrun : run = ⟨rid, wcid, "FAIL".data, t0, some tf, [], none⟩ := by
      simp only [test_run_final, test_run_states, Except.map] at hf
      cases hf
      rfl
    subst hrun
    refine ⟨rfl, rfl, rfl, rfl, ?_, hcontrast⟩
    intro s hsm
    simp only [List.mem_cons, List.not_mem_nil, or_false] at hsm
    rcases hsm with rfl | rfl | rfl <;> simp
  | true =>
    simp only [test_run_states] at hs
    cases hs
    have hrun : run = ⟨rid, wcid, "FAIL".data, t0, some tf, [], none⟩ := by
      simp only [test_run_final, test_run_states, Except.map] at hf
      cases hf
      rfl
    subst hrun
    refine ⟨rfl, rfl, rfl, rfl, ?_, hcontrast⟩
    intro s hsm
    simp only [List.mem_cons, List.not_mem_nil, or_false] at hsm
    rcases hsm with rfl | rfl | rfl | rfl <;> simp

/-- Witness for C5: an execution-phase failure returns FAIL with no report. -/
theorem C5_exec_failure_witness :
    test_run_final "r".data "w".data [] (ExecOutcome.raised true "boom".data) 0 1 =
      Except.ok ⟨"r".data, "w".data, "FAIL".data, 0, some 1, [], none⟩ ∧
    (⟨"r".data, "w".data, "FAIL".data, 0, some 1, [], none⟩ : Run).status = "FAIL".data ∧
    (⟨"r".data, "w".data, "FAIL".data, 0, some 1, [], none⟩ : Run).junit_path = none :=
  ⟨rfl,
   (C5_exec_failure "r".data "w".data [] true "boom".data 0 1 _
     ⟨"r".data, "w".data, "FAIL".data, 0, some 1, [], none⟩ rfl rfl).1,
   (C5_exec_failure "r".data "w".data [] true "boom".data 0 1 _
     ⟨"r".data, "w".data, "FAIL".data, 0, some 1, [], none⟩ rfl rfl).2.2.2.1⟩

theorem forall2_self_map {α β : Type} (P : α → β → Prop) (f : α → β) :
    ∀ (l : List α), (∀ a ∈ l, P a (f a)) → List.Forall₂ P l (l.map f) := by
  intro l
  induction l with
  | nil => intro _; simp
  | cons a l ih =>
    intro h
    simp only [List.map_cons]
    exact List.Forall₂.cons (h a (by simp)) (ih (fun x hx => h x (by simp [hx])))

/-- C8: the generated report is a `testsuite` whose `tests` attribute is
the rendered number of results, with exactly one `testcase` child per
AssertionResult in order, each named `operator:assertion_id`; a failing
entry has a single `failure` child carrying the message both as an
attribute and as body text, and a passing entry has no children. -/
theorem C8_junit_structure (run : Run) :
    (generate_junit_xml run).tag = "testsuite".data ∧
    (generate_junit_xml run).attr "tests".data = some (natDigits run.results.length) ∧
    (generate_junit_xml run).children.length = run.results.length ∧
    List.Forall₂ (fun (r : AssertionResult) (c : XmlElem) =>
        c.tag = "testcase".data ∧
        c.attr "name".data = some (r.operator ++ ':' :: r.assertion_id) ∧
        (r.passed = true → c.children = []) ∧
        (r.passed = false →
          c.children = [XmlElem.mk "failure".data [("message".data, r.message)]
            (some r.message) []]))
      run.results (generate_junit_xml run).children := by
  refine ⟨rfl, ?_, ?_, ?_⟩
  · simp [generate_junit_xml, XmlElem.attr, XmlElem.attrs, List.find?]
  · simp [generate_junit_xml, XmlElem.children]
  · show List.Forall₂ _ run.results (run.results.map _)
    apply forall2_self_map
    intro r _
    refine ⟨rfl, ?_, ?_, ?_⟩
    · simp [XmlElem.attr, XmlElem.attrs, List.find?]
    · intro hp
      simp [XmlElem.children, hp]
    · intro hp
      simp [XmlElem.children, hp]

/-- Witness for C8 at a two-result run with one failure. -/
theorem C8_junit_structure_witness :
    (generate_junit_xml ⟨"r".data, "w".data, "FAIL".data, 0, some 1,
      [⟨"a1".data, "eq".data, true, "ok".data⟩,
       ⟨"a2".data, "eq".data, false, "bad".data⟩], none⟩).children.length = 2 :=
  (C8_junit_structure ⟨"r".data, "w".data, "FAIL".data, 0, some 1,
      [⟨"a1".data, "eq".data, true, "ok".data⟩,
       ⟨"a2".data, "eq".data, false, "bad".data⟩], none⟩).2.2.1

theorem matchCI_decomp : ∀ (kw s r : PStr), matchCI kw s = some r →
    ∃ p, s = p ++ r ∧ p.map Char.toLower = kw := by
  intro kw
  induction kw with
  | nil =>
    intro s r h
    simp only [matchCI] at h
    cases h
    exact ⟨[], by simp⟩
  | cons k ks ih =>
    intro s r h
    cases s with
    | nil => simp [matchCI] at h
    | cons c cs =>
      simp only [matchCI] at h
      by_cases hc : c.toLower = k
      · rw [if_pos hc] at h
        obtain ⟨p, hp1, hp2⟩ := ih cs r h
        exact ⟨c :: p, by simp [hp1], by simp [hp2, hc]⟩
      · rw [if_neg hc] at h
        exact absurd h (by simp)

theorem matchCI_self : ∀ (kwa rest : PStr),
    matchCI (kwa.map Char.toLower) (kwa ++ rest) = some rest := by
  intro kwa
  induction kwa with
  | nil => intro rest; rfl
  | cons c cs ih =>
    intro rest
    simp only [List.map_cons, List.cons_append, matchCI, if_pos rfl]
    exact ih rest

theorem takeWhile_all_append (p : Char → Bool) : ∀ (v post : PStr),
    (∀ c ∈ v, p c = true) → (post = [] ∨ ∃ c t, post = c :: t ∧ p c = false) →
    (v ++ post).takeWhile p = v ∧ (v ++ post).dropWhile p = post := by
  intro v
  induction v with
  | nil =>
    intro post _ hpost
    rcases hpost with rfl | ⟨c, t, rfl, hc⟩
    · simp
    · simp [List.takeWhile, List.dropWhile, hc]
  | cons a v ih =>
    intro post hv hpost
    have ha : p a = true := hv a (by simp)
    obtain ⟨h1, h2⟩ := ih post (fun c hc => hv c (by simp [hc])) hpost
    simp only [List.cons_append, List.takeWhile_cons, List.dropWhile_cons, ha, if_true,
      ite_true, h1, h2]
    constructor <;> trivial

theorem tryKw_keywords (kwa rest : PStr) (hmem : kwa.map Char.toLower ∈ keywords) :
    tryKw keywords (kwa ++ rest) = some (kwa.length, rest) := by
  have hself := matchCI_self kwa rest
  simp only [keywords, List.mem_cons, List.not_mem_nil, or_false] at hmem
  cases kwa with
  | nil => simp at hmem
  | cons c cs =>
    have hfirst : c.toLower = (List.map Char.toLower (c :: cs)).headD ' ' := by simp
    rcases hmem with hmap | hmap | hmap | hmap
    · have hlen := congrArg List.length hmap
      simp only [List.length_map, List.length_cons, List.length_nil] at hlen
      rw [hmap] at hfirst hself
      simp only [List.headD_cons] at hfirst
      simp only [keywords, tryKw, hself]
      simp
      omega
    · have hlen := congrArg List.length hmap
      simp only [List.length_map, List.length_cons, List.length_nil] at hlen
      rw [hmap] at hfirst hself
      simp only [List.headD_cons] at hfirst
      have hno1 : matchCI "token".data ((c :: cs) ++ rest) = none := by
        simp [List.cons_append, matchCI, hfirst]
      simp only [keywords, tryKw, hno1, hself]
      simp
      omega
    · have hlen := congrArg List.length hmap
      simp only [List.length_map, List.length_cons, List.length_nil] at hlen
      rw [hmap] at hfirst hself
      simp only [List.headD_cons] at hfirst
      have hno1 : matchCI "token".data ((c :: cs) ++ rest) = none := by
        simp [List.cons_append, matchCI, hfirst]
      have hno2 : matchCI "key".data ((c :: cs) ++ rest) = none := by
        simp [List.cons_append, matchCI, hfirst]
      simp only [keywords, tryKw, hno1, hno2, hself]
      simp
      omega
    · have hlen := congrArg List.length hmap
      simp only [List.length_map, List.length_cons, List.length_nil] at hlen
      rw [hmap] at hfirst hself
      simp only [List.headD_cons] at hfirst
      have hno1 : matchCI "token".data ((c :: cs) ++ rest) = none := by
        simp [List.cons_append, matchCI, hfirst]
      have hno2 : matchCI "key".data ((c :: cs) ++ rest) = none := by
        simp [List.cons_append, matchCI, hfirst]
      have hno3 : matchCI "secret".data ((c :: cs) ++ rest) = none := by
        simp [List.cons_append, matchCI, hfirst]
      simp only [keywords, tryKw, hno1, hno2, hno3, hself]
      simp
      omega

theorem tryMatch_at_head (kwa v post : PStr)
    (hkw : kwa.map Char.toLower ∈ keywords) (hv : v ≠ [])
    (hvs : ∀ c ∈ v, stopChar c = false)
    (hpost : post = [] ∨ ∃ c t, post = c :: t ∧ stopChar c = true) :
    tryMatch (kwa ++ '=' :: (v ++ post)) = some (kwa, v, post) := by
  have htk := tryKw_keywords kwa ('=' :: (v ++ post)) hkw
  obtain ⟨htw, hdw⟩ := takeWhile_all_append (fun c => !stopChar c) v post
    (fun c hc => by simp [hvs c hc])
    (by rcases hpost with rfl | ⟨c, t, rfl, hc⟩
        · exact Or.inl rfl
        · exact Or.inr ⟨c, t, rfl, by simp [hc]⟩)
  unfold tryMatch
  simp only [htk, htw, hdw]
  have hvE : v.isEmpty = false := by
    cases v with
    | nil => exact absurd rfl hv
    | cons a b => rfl
  simp only [hvE, if_false, ite_false, Bool.false_eq_true]
  have htake : (kwa ++ '=' :: (v ++ post)).take kwa.length = kwa :=
    List.take_left kwa ('=' :: (v ++ post))
  rw [htake]

theorem tryMatch_decomp (s k2 v2 r2 : PStr) (h : tryMatch s = some (k2, v2, r2)) :
    s = k2 ++ '=' :: (v2 ++ r2) ∧ k2.map Char.toLower ∈ keywords := by
  unfold tryMatch at h
  cases htk : tryKw keywords s with
  | none => rw [htk] at h; exact absurd h (by simp)
  | some nr =>
    rw [htk] at h
    obtain ⟨n, r0⟩ := nr
    obtain ⟨kw, hmem, hm, hn⟩ := tryKw_spec keywords s n r0 htk
    obtain ⟨p, hp1, hp2⟩ := matchCI_decomp kw s r0 hm
    cases r0 with
    | nil => exact absurd h (by simp)
    | cons c0 rr =>
      by_cases hc0 : c0 = '='
      · subst hc0
        simp only at h
        by_cases hvE : (rr.takeWhile (fun c => !stopChar c)).isEmpty
        · rw [if_pos hvE] at h
          exact absurd h (by simp)
        · rw [if_neg hvE] at h
          cases h
          have hplen : n = p.length := by
            have h5 := congrArg List.length hp2
            simp only [List.length_map] at h5
            rw [hn, ← h5]
          have htake : s.take n = p := by
            rw [hplen, hp1]
            exact List.take_left p _
          refine ⟨?_, ?_⟩
          · rw [htake, List.takeWhile_append_dropWhile, hp1]
          · rw [htake, hp2]
            exact hmem
      · have hne : ¬ (c0 :: rr = '=' :: rr) := by simp [hc0]
        cases hcc : c0 <;> simp [hc0] at h

theorem eq_char_notin_keyword (k2 : PStr) (h : k2.map Char.toLower ∈ keywords) :
    '=' ∉ k2 := by
  intro hmem
  have h1 : Char.toLower '=' ∈ k2.map Char.toLower := List.mem_map_of_mem Char.toLower hmem
  have h2 : Char.toLower '=' = '=' := by decide
  rw [h2] at h1
  simp only [keywords, List.mem_cons, List.not_mem_nil, or_false] at h
  rcases h with h | h | h | h <;> rw [h] at h1 <;> exact absurd h1 (by decide)

theorem split_at_first (c : Char) : ∀ (A B X Y : PStr), c ∉ A → c ∉ B →
    A ++ c :: X = B ++ c :: Y → A = B ∧ X = Y := by
  intro A
  induction A with
  | nil =>
    intro B X Y _ hB h
    cases B with
    | nil =>
      simp only [List.nil_append] at h
      cases h
      exact ⟨rfl, rfl⟩
    | cons b B2 =>
      simp only [List.nil_append, List.cons_append] at h
      injection h with h1 h2
      subst h1
      exact absurd (by simp : c ∈ c :: B2) hB
  | cons a A2 ih =>
    intro B X Y hA hB h
    cases B with
    | nil =>
      simp only [List.cons_append, List.nil_append] at h
      injection h with h1 h2
      subst h1
      exact absurd (by simp : a ∈ a :: A2) hA
    | cons b B2 =>
      simp only [List.cons_append] at h
      injection h with h1 h2
      subst h1
      obtain ⟨hab, hxy⟩ := ih B2 X Y (fun hc => hA (by simp [hc])) (fun hc => hB (by simp [hc])) h2
      exact ⟨by rw [hab], hxy⟩

theorem keywords_suffix_free : ∀ K ∈ keywords, ∀ K2 ∈ keywords, ∀ (X : PStr),
    X ++ K2 = K → X = [] := by
  intro K hK K2 hK2 X h
  have hl := congrArg List.length h
  simp only [List.length_append] at hl
  have hg := congrArg List.getLast? h
  simp only [keywords, List.mem_cons, List.not_mem_nil, or_false] at hK hK2
  rcases hK with rfl | rfl | rfl | rfl <;> rcases hK2 with rfl | rfl | rfl | rfl <;>
    first
    | (apply List.eq_nil_of_length_eq_zero
       simp only [List.length_cons, List.length_nil] at hl
       omega)
    | (exfalso
       rw [List.getLast?_append_of_ne_nil _ (by simp)] at hg
       simp at hg)
    | (exfalso
       simp only [List.length_cons, List.length_nil] at hl
       omega)

theorem mask_secrets_cons_some (c : Char) (rest kw v r : PStr)
    (hm : tryMatch (c :: rest) = some (kw, v, r)) :
    mask_secrets (c :: rest) = kw ++ '=' :: '*' :: '*' :: '*' :: mask_secrets r := by
  conv_lhs => unfold mask_secrets
  split
  · rename_i kw2 v2 r2 heq
    have h3 : tryMatch (c :: rest) = some (kw2, v2, r2) := by
      first
      | exact heq
      | exact heq.symm
    rw [hm] at h3
    injection h3 with h4
    simp only [Prod.mk.injEq] at h4
    obtain ⟨h5, h6, h7⟩ := h4
    subst h5
    subst h6
    subst h7
    rfl
  · rename_i heq
    have h3 : tryMatch (c :: rest) = none := by
      first
      | exact heq
      | exact heq.symm
    rw [hm] at h3
    exact absurd h3 (by simp)

theorem mask_secrets_cons_none (c : Char) (rest : PStr)
    (hm : tryMatch (c :: rest) = none) :
    mask_secrets (c :: rest) = c :: mask_secrets rest := by
  conv_lhs => unfold mask_secrets
  split
  · rename_i kw2 v2 r2 heq
    have h3 : tryMatch (c :: rest) = some (kw2, v2, r2) := by
      first
      | exact heq
      | exact heq.symm
    rw [hm] at h3
    exact absurd h3 (by simp)
  · rfl

/-- C9: an embedded secret of the form `keyword=value` (keyword one of
token/key/secret/password in any casing, value nonempty and free of
whitespace and `&`, terminated by whitespace/`&` or the end of the text,
and not preceded by any `=` that an earlier match could consume) is
redacted: the keyword text is preserved character for character and the
value is replaced by the fixed mask `***`; scanning continues on the rest
of the text. -/
theorem C9_mask_secrets_redacts (pre kwa v post : PStr)
    (hpre : '=' ∉ pre)
    (hkw : kwa.map Char.toLower ∈ keywords)
    (hv : v ≠ [])
    (hvs : ∀ c ∈ v, stopChar c = false)
    (hpost : post = [] ∨ ∃ c t, post = c :: t ∧ stopChar c = true) :
    mask_secrets (pre ++ kwa ++ '=' :: (v ++ post)) =
      pre ++ kwa ++ '=' :: '*' :: '*' :: '*' :: mask_secrets post := by
  induction pre with
  | nil =>
    simp only [List.nil_append]
    cases kwa with
    | nil => simp [keywords] at hkw
    | cons kc kt =>
      have hm := tryMatch_at_head (kc :: kt) v post hkw hv hvs hpost
      have hm2 : tryMatch (kc :: (kt ++ '=' :: (v ++ post))) =
          some (kc :: kt, v, post) := hm
      have hgoal := mask_secrets_cons_some kc (kt ++ '=' :: (v ++ post))
        (kc :: kt) v post hm2
      calc mask_secrets ((kc :: kt) ++ '=' :: (v ++ post))
          = mask_secrets (kc :: (kt ++ '=' :: (v ++ post))) := by
            rw [List.cons_append]
        _ = (kc :: kt) ++ '=' :: '*' :: '*' :: '*' :: mask_secrets post := hgoal
  | cons c pre2 ih =>
    have hc : ¬ c = '=' := fun hcc => hpre (by simp [hcc])
    have hpre2 : '=' ∉ pre2 := fun hcc => hpre (by simp [hcc])
    have hnone : tryMatch (c :: ((pre2 ++ kwa) ++ '=' :: (v ++ post))) = none := by
      cases htm : tryMatch (c :: ((pre2 ++ kwa) ++ '=' :: (v ++ post))) with
      | none => rfl
      | some kvr =>
        exfalso
        obtain ⟨k2, v2, r2⟩ := kvr
        obtain ⟨hdec, hmem2⟩ := tryMatch_decomp _ k2 v2 r2 htm
        have hdec2 : ((c :: pre2) ++ kwa) ++ '=' :: (v ++ post) =
            k2 ++ '=' :: (v2 ++ r2) := by
          calc ((c :: pre2) ++ kwa) ++ '=' :: (v ++ post)
              = c :: ((pre2 ++ kwa) ++ '=' :: (v ++ post)) := by
                simp [List.cons_append]
            _ = k2 ++ '=' :: (v2 ++ r2) := hdec
        have hnotinA : '=' ∉ (c :: pre2) ++ kwa := by
          intro hmm
          rcases List.mem_append.mp hmm with hmm | hmm
          · exact hpre hmm
          · exact eq_char_notin_keyword kwa hkw hmm
        have hnotinB : '=' ∉ k2 := eq_char_notin_keyword k2 hmem2
        obtain ⟨hAB, _⟩ := split_at_first '=' ((c :: pre2) ++ kwa) k2 (v ++ post)
          (v2 ++ r2) hnotinA hnotinB hdec2
        have hmap2 : (List.map Char.toLower (c :: pre2)) ++
            (List.map Char.toLower kwa) = List.map Char.toLower k2 := by
          rw [← List.map_append, hAB]
        have hnil := keywords_suffix_free (List.map Char.toLower k2) hmem2
          (List.map Char.toLower kwa) hkw (List.map Char.toLower (c :: pre2)) hmap2
        simp at hnil
    calc mask_secrets (((c :: pre2) ++ kwa) ++ '=' :: (v ++ post))
        = mask_secrets (c :: ((pre2 ++ kwa) ++ '=' :: (v ++ post))) := by
          simp [List.cons_append]
      _ = c :: mask_secrets ((pre2 ++ kwa) ++ '=' :: (v ++ post)) :=
          mask_secrets_cons_none _ _ hnone
      _ = c :: (pre2 ++ kwa ++ '=' :: '*' :: '*' :: '*' :: mask_secrets post) := by
          rw [ih hpre2]
      _ = ((c :: pre2) ++ kwa) ++ '=' :: '*' :: '*' :: '*' :: mask_secrets post := by
          simp [List.cons_append]

/-- Witness for C9: `connect Token=abc123 end` — the mixed-case keyword is
preserved and the value is masked. -/
theorem C9_mask_secrets_redacts_witness :
    '=' ∉ "connect ".data ∧
    mask_secrets ("connect ".data ++ "Token".data ++ '=' :: ("abc123".data ++ " end".data)) =
      "connect ".data ++ "Token".data ++ '=' :: '*' :: '*' :: '*' ::
        mask_secrets " end".data :=
  ⟨by decide, C9_mask_secrets_redacts "connect ".data "Token".data "abc123".data " end".data
    (by decide) (by decide) (by decide) (by decide)
    (Or.inr ⟨' ', "end".data, rfl, by decide⟩)⟩
